import Mathlib

/-!
# spsc_fifo: the latency queue of `spsc_fifo.h`

A shallow embedding of `spsc_latency_fifo<T>`.

* The two `std::deque`s are lists, head first: `front()` is the head of the list,
  `pop_front()` drops it, `emplace_back` appends at the tail.
* Every `uint32_t` (the fields `depth_`, `latency_`, `size_`, `output_size_`, the time
  stamps) is a natural number; each arithmetic operation of the header reduces its result
  modulo `2 ^ 32` as the machine does.
* `getCurrentTime()` is the clock.  The operations that call it (`write`, `update`) take the
  value it returns during the call as their first argument `now`; the body the header gives
  it (`return 0;`) is the constant `getCurrentTime` below.  Statements that hold for every
  `now` are stated so; every concrete run of the code is a run at `getCurrentTime`.
* `assert` is modelled as compiled in: a failed assertion ends the call with
  `Outcome.assert_failed` (the process is aborted, nothing is returned).
* The single thread of control of the embedding runs the operations one after another;
  the atomic `size_` is then an ordinary counter.
-/

namespace SpscFifo

/-- Number of values of a `uint32_t`. -/
def UINT32_SIZE : Nat := 4294967296

/-- The macro `DEPTH_INFINITE`, `0xffffffff`: the default `depth_`. -/
def DEPTH_INFINITE : Nat := 0xffffffff

/-- The macro `DEFAULT_LATENCY`, `1`: the default `latency_`. -/
def DEFAULT_LATENCY : Nat := 1

/-- The clock of the header: `uint32_t getCurrentTime(){ return 0; }`. -/
def getCurrentTime : Nat := 0

/-- The fields of `spsc_latency_fifo<T>`, in the order of the header. -/
structure spsc_latency_fifo (T : Type) where
  depth_ : Nat
  latency_ : Nat
  size_ : Nat
  output_size_ : Nat
  output_queue_ : List T
  input_queue_ : List (T × Nat)
deriving DecidableEq

/-- How a call ends. -/
inductive Outcome (α : Type) where
  /-- Control comes back to the caller with `a`. -/
  | done (a : α)
  /-- An `assert` failed: the process is aborted, the caller gets nothing back. -/
  | assert_failed
  /-- The call ran `front()` or `pop_front()` on an empty deque. -/
  | undefined
deriving DecidableEq

variable {T : Type}

/-- The constructor `spsc_latency_fifo(uint32_t depth, uint32_t latency)`: it sets
`depth_` and `latency_`, the other fields take their default member initialisers. -/
def spsc_latency_fifo.construct (depth latency : Nat) : spsc_latency_fifo T :=
  { depth_ := depth, latency_ := latency, size_ := 0, output_size_ := 0,
    output_queue_ := [], input_queue_ := [] }

/-- The query `full()`: `size_ >= depth_`. -/
def full (q : spsc_latency_fifo T) : Bool := decide (q.size_ ≥ q.depth_)

/-- The query `empty()`: `size_ == 0`. -/
def empty (q : spsc_latency_fifo T) : Bool := decide (q.size_ = 0)

/-- The query `valid()`: `output_size_ > 0`. -/
def valid (q : spsc_latency_fifo T) : Bool := decide (q.output_size_ > 0)

/-- The call `write(data)` run while `getCurrentTime()` returns `now`; both overloads have this
body.  The result is the returned `bool` and the queue after the call. -/
def write (now : Nat) (data : T) (q : spsc_latency_fifo T) : Bool × spsc_latency_fifo T :=
  if full q then (false, q)
  else
    (true,
      { q with
        size_ := (q.size_ + 1) % UINT32_SIZE
        input_queue_ := q.input_queue_ ++ [(data, (now + q.latency_) % UINT32_SIZE)] })

/-- What a completed `read()` leaves behind: the local `tmp`, the value handed to the
caller, and the queue after the call.  The body of `read` ends without a `return`
statement, so `result` is always `none`. -/
structure read_effect (T : Type) where
  tmp : T
  result : Option T
  fifo : spsc_latency_fifo T
deriving DecidableEq

/-- The call `read()`: the assertion, then `front()`, `pop_front()`, `output_size_ -= 1` and
`size_.fetch_sub(1)`. -/
def read (q : spsc_latency_fifo T) : Outcome (read_effect T) :=
  if valid q then
    match q.output_queue_ with
    | [] => Outcome.undefined
    | tmp :: rest =>
      Outcome.done
        { tmp := tmp
          result := none
          fifo :=
            { q with
              output_queue_ := rest
              output_size_ := (q.output_size_ + UINT32_SIZE - 1) % UINT32_SIZE
              size_ := (q.size_ + UINT32_SIZE - 1) % UINT32_SIZE } }
  else Outcome.assert_failed

/-- The call `peek_front()`: the returned item and the queue after the call. -/
def peek_front (q : spsc_latency_fifo T) : Outcome (T × spsc_latency_fifo T) :=
  if valid q then
    match q.output_queue_ with
    | [] => Outcome.undefined
    | front :: _ => Outcome.done (front, q)
  else Outcome.assert_failed

/-- The test of the loop of `update()`: `input_queue_.front().second <= current_time`. -/
def due (current_time : Nat) (front : T × Nat) : Bool := decide (front.2 ≤ current_time)

/-- The `while` loop of `update()` on `input_queue_`, `output_queue_` and `output_size_`. -/
def update_loop (current_time : Nat) :
    List (T × Nat) → List T → Nat → List (T × Nat) × List T × Nat
  | [], output_queue, output_size => ([], output_queue, output_size)
  | front :: rest, output_queue, output_size =>
    if due current_time front then
      update_loop current_time rest (output_queue ++ [front.1])
        ((output_size + 1) % UINT32_SIZE)
    else (front :: rest, output_queue, output_size)

/-- The call `update()` run while `getCurrentTime()` returns `now`. -/
def update (now : Nat) (q : spsc_latency_fifo T) : spsc_latency_fifo T :=
  let r := update_loop now q.input_queue_ q.output_queue_ q.output_size_
  { q with input_queue_ := r.1, output_queue_ := r.2.1, output_size_ := r.2.2 }

/-! ## Runs of operations -/

/-- One call on the queue; `write` and `update` carry the value `getCurrentTime()` returns
during the call. -/
inductive Op (T : Type) where
  | write (now : Nat) (data : T)
  | read
  | peek_front
  | update (now : Nat)
deriving DecidableEq

/-- A queue together with a record of what went through it: `accepted` lists, oldest
first, every item for which `write` returned `true` with the clock value of that call;
`removed` lists, oldest first, the items `read` took out of `output_queue_`. -/
structure Sim (T : Type) where
  fifo : spsc_latency_fifo T
  accepted : List (T × Nat)
  removed : List T
deriving DecidableEq

/-- A freshly constructed queue, nothing written or read yet. -/
def Sim.start (depth latency : Nat) : Sim T :=
  { fifo := spsc_latency_fifo.construct depth latency, accepted := [], removed := [] }

/-- Run one call. -/
def step (op : Op T) (s : Sim T) : Outcome (Sim T) :=
  match op with
  | Op.write now data =>
    let r := write now data s.fifo
    Outcome.done
      { s with
        fifo := r.2
        accepted := if r.1 then s.accepted ++ [(data, now)] else s.accepted }
  | Op.read =>
    match read s.fifo with
    | Outcome.done e => Outcome.done { s with fifo := e.fifo, removed := s.removed ++ [e.tmp] }
    | Outcome.assert_failed => Outcome.assert_failed
    | Outcome.undefined => Outcome.undefined
  | Op.peek_front =>
    match peek_front s.fifo with
    | Outcome.done r => Outcome.done { s with fifo := r.2 }
    | Outcome.assert_failed => Outcome.assert_failed
    | Outcome.undefined => Outcome.undefined
  | Op.update now => Outcome.done { s with fifo := update now s.fifo }

/-- Run the calls of a list one after another; the first call that does not complete ends
the run. -/
def run : List (Op T) → Sim T → Outcome (Sim T)
  | [], s => Outcome.done s
  | op :: rest, s =>
    match step op s with
    | Outcome.done s' => run rest s'
    | Outcome.assert_failed => Outcome.assert_failed
    | Outcome.undefined => Outcome.undefined

/-- The clock values read by the calls of a run, in order. -/
def clock_values : List (Op T) → List Nat
  | [] => []
  | Op.write now _ :: rest => now :: clock_values rest
  | Op.update now :: rest => now :: clock_values rest
  | Op.read :: rest => clock_values rest
  | Op.peek_front :: rest => clock_values rest

/-- The entry `write` stores for an item accepted at clock value `p.2`. -/
def stamp (latency : Nat) (p : T × Nat) : T × Nat := (p.1, (p.2 + latency) % UINT32_SIZE)

/-- The call is a `write`. -/
def Op.is_write : Op T → Bool
  | Op.write _ _ => true
  | _ => false

/-- The call is an `update`. -/
def Op.is_update : Op T → Bool
  | Op.update _ => true
  | _ => false

/-- The booleans returned by the `write` calls of a run, in order. -/
def write_results : List (Op T) → Sim T → List Bool
  | [], _ => []
  | op :: rest, s =>
    match step op s with
    | Outcome.done s' =>
      match op with
      | Op.write now data => (write now data s.fifo).1 :: write_results rest s'
      | _ => write_results rest s'
    | _ => []

/-- The counters agree with the two deques and respect the capacity; `depth_` is in the
range of a `uint32_t`. -/
structure Counted (q : spsc_latency_fifo T) : Prop where
  depth_lt : q.depth_ < UINT32_SIZE
  size_eq : q.size_ = q.input_queue_.length + q.output_queue_.length
  output_size_eq : q.output_size_ = q.output_queue_.length
  size_le : q.size_ ≤ q.depth_

/-- What holds of a queue constructed with `depth` and `latency` throughout a run: the
configuration is fixed, the counters are right, and the accepted items split into those
that left `input_queue_` (read already, or in `output_queue_`) and those still in it, each
of the latter under the stamp `write` gave it. -/
structure Sim.Inv (depth latency : Nat) (s : Sim T) : Prop where
  depth_eq : s.fifo.depth_ = depth
  latency_eq : s.fifo.latency_ = latency
  counted : Counted s.fifo
  logged : ∃ gone pend : List (T × Nat), s.accepted = gone ++ pend ∧
    gone.map Prod.fst = s.removed ++ s.fifo.output_queue_ ∧
    s.fifo.input_queue_ = pend.map (stamp latency)

/-! ## The loop of `update` -/

theorem update_loop_input (now : Nat) (l : List (T × Nat)) (out : List T) (n : Nat) :
    (update_loop now l out n).1 = l.dropWhile (due now) := by
  induction l generalizing out n with
  | nil => rfl
  | cons e rest ih =>
    by_cases h : due now e = true
    · simp [update_loop, h, ih]
    · simp [update_loop, h]

theorem update_loop_output (now : Nat) (l : List (T × Nat)) (out : List T) (n : Nat) :
    (update_loop now l out n).2.1 = out ++ (l.takeWhile (due now)).map Prod.fst := by
  induction l generalizing out n with
  | nil => simp [update_loop]
  | cons e rest ih =>
    by_cases h : due now e = true
    · simp [update_loop, h, ih]
    · simp [update_loop, h]

theorem update_loop_count (now : Nat) (l : List (T × Nat)) (out : List T) (n : Nat)
    (h : n + (l.takeWhile (due now)).length < UINT32_SIZE) :
    (update_loop now l out n).2.2 = n + (l.takeWhile (due now)).length := by
  induction l generalizing out n with
  | nil => simp [update_loop]
  | cons e rest ih =>
    by_cases hd : due now e = true
    · simp only [List.takeWhile_cons, hd, if_true, List.length_cons] at h
      have h1 : (n + 1) % UINT32_SIZE = n + 1 := Nat.mod_eq_of_lt (by omega)
      simp only [update_loop, hd, if_true, List.takeWhile_cons, List.length_cons, h1]
      rw [ih]
      · omega
      · omega
    · simp [update_loop, hd]

theorem update_input (now : Nat) (q : spsc_latency_fifo T) :
    (update now q).input_queue_ = q.input_queue_.dropWhile (due now) :=
  update_loop_input now _ _ _

theorem update_output (now : Nat) (q : spsc_latency_fifo T) :
    (update now q).output_queue_ =
      q.output_queue_ ++ (q.input_queue_.takeWhile (due now)).map Prod.fst :=
  update_loop_output now _ _ _

theorem takeWhile_dropWhile_length (p : α → Bool) (l : List α) :
    (l.takeWhile p).length + (l.dropWhile p).length = l.length := by
  rw [← List.length_append, List.takeWhile_append_dropWhile]

theorem update_size (now : Nat) (q : spsc_latency_fifo T) :
    (update now q).size_ = q.size_ ∧ (update now q).depth_ = q.depth_ ∧
      (update now q).latency_ = q.latency_ :=
  ⟨rfl, rfl, rfl⟩

/-! ## The counters -/

theorem counted_construct (depth latency : Nat) (h : depth < UINT32_SIZE) :
    Counted (spsc_latency_fifo.construct depth latency : spsc_latency_fifo T) :=
  ⟨h, rfl, rfl, Nat.zero_le _⟩

theorem write_of_full (now : Nat) (x : T) (q : spsc_latency_fifo T) (h : full q = true) :
    write now x q = (false, q) := by
  simp [write, h]

theorem write_of_not_full (now : Nat) (x : T) (q : spsc_latency_fifo T)
    (h : full q = false) :
    write now x q =
      (true,
        { q with
          size_ := (q.size_ + 1) % UINT32_SIZE
          input_queue_ := q.input_queue_ ++ [(x, (now + q.latency_) % UINT32_SIZE)] }) := by
  simp [write, h]

theorem counted_write {q : spsc_latency_fifo T} (hq : Counted q) (now : Nat) (x : T) :
    Counted (write now x q).2 := by
  by_cases hf : full q = true
  · rw [write_of_full now x q hf]; exact hq
  · have hf' : full q = false := by simpa using hf
    rw [write_of_not_full now x q hf']
    have hlt : q.size_ < q.depth_ := by simpa [full] using hf'
    have hd := hq.depth_lt
    have hmod : (q.size_ + 1) % UINT32_SIZE = q.size_ + 1 := Nat.mod_eq_of_lt (by omega)
    refine ⟨hq.depth_lt, ?_, hq.output_size_eq, ?_⟩
    · simp only [hmod, List.length_append, List.length_singleton]
      have := hq.size_eq
      omega
    · simp only [hmod]; omega

theorem counted_update {q : spsc_latency_fifo T} (hq : Counted q) (now : Nat) :
    Counted (update now q) := by
  have hlen := takeWhile_dropWhile_length (due now) q.input_queue_
  have h1 := hq.size_eq
  have h2 := hq.output_size_eq
  have h3 := hq.size_le
  have h4 := hq.depth_lt
  have hcount : (update now q).output_size_ =
      q.output_size_ + (q.input_queue_.takeWhile (due now)).length :=
    update_loop_count now _ _ _ (by omega)
  refine ⟨hq.depth_lt, ?_, ?_, hq.size_le⟩
  · rw [update_input, update_output]
    simp only [List.length_append, List.length_map]
    show q.size_ = _
    omega
  · rw [hcount, update_output]
    simp only [List.length_append, List.length_map]
    omega

theorem read_of_cons {q : spsc_latency_fifo T} {x : T} {rest : List T}
    (hv : valid q = true) (hout : q.output_queue_ = x :: rest) :
    read q =
      Outcome.done
        { tmp := x
          result := none
          fifo :=
            { q with
              output_queue_ := rest
              output_size_ := (q.output_size_ + UINT32_SIZE - 1) % UINT32_SIZE
              size_ := (q.size_ + UINT32_SIZE - 1) % UINT32_SIZE } } := by
  simp [read, hv, hout]

theorem read_done_inv {q : spsc_latency_fifo T} {e : read_effect T}
    (h : read q = Outcome.done e) :
    valid q = true ∧ q.output_queue_ = e.tmp :: e.fifo.output_queue_ ∧ e.result = none ∧
      e.fifo =
        { q with
          output_queue_ := e.fifo.output_queue_
          output_size_ := (q.output_size_ + UINT32_SIZE - 1) % UINT32_SIZE
          size_ := (q.size_ + UINT32_SIZE - 1) % UINT32_SIZE } := by
  unfold read at h
  by_cases hv : valid q = true
  · rw [if_pos hv] at h
    cases hout : q.output_queue_ with
    | nil => rw [hout] at h; cases h
    | cons x rest =>
      rw [hout] at h
      injection h with h
      subst h
      exact ⟨hv, rfl, rfl, rfl⟩
  · rw [if_neg hv] at h; cases h

theorem counted_read {q : spsc_latency_fifo T} (hq : Counted q) {e : read_effect T}
    (h : read q = Outcome.done e) : Counted e.fifo := by
  obtain ⟨hv, hout, -, hfifo⟩ := read_done_inv h
  have h1 := hq.size_eq
  have h2 := hq.output_size_eq
  have h3 := hq.size_le
  have h4 := hq.depth_lt
  have hlen : q.output_queue_.length = e.fifo.output_queue_.length + 1 := by
    rw [hout]; rfl
  have hsz : (q.size_ + UINT32_SIZE - 1) % UINT32_SIZE = q.size_ - 1 := by
    have : q.size_ + UINT32_SIZE - 1 = (q.size_ - 1) + UINT32_SIZE := by omega
    rw [this, Nat.add_mod_right]
    exact Nat.mod_eq_of_lt (by omega)
  have hos : (q.output_size_ + UINT32_SIZE - 1) % UINT32_SIZE = q.output_size_ - 1 := by
    have : q.output_size_ + UINT32_SIZE - 1 = (q.output_size_ - 1) + UINT32_SIZE := by omega
    rw [this, Nat.add_mod_right]
    exact Nat.mod_eq_of_lt (by omega)
  rw [hfifo]
  refine ⟨h4, ?_, ?_, ?_⟩
  · simp only [hsz]; omega
  · simp only [hos]; omega
  · simp only [hsz]; omega

theorem read_completes {q : spsc_latency_fifo T} (hq : Counted q) (hv : valid q = true) :
    ∃ e, read q = Outcome.done e := by
  have hpos : 0 < q.output_size_ := by simpa [valid] using hv
  cases hout : q.output_queue_ with
  | nil =>
    have := hq.output_size_eq
    rw [hout] at this
    simp at this
    omega
  | cons x rest => exact ⟨_, read_of_cons hv hout⟩

theorem peek_front_done_inv {q : spsc_latency_fifo T} {r : T × spsc_latency_fifo T}
    (h : peek_front q = Outcome.done r) :
    valid q = true ∧ q.output_queue_.head? = some r.1 ∧ r.2 = q := by
  unfold peek_front at h
  by_cases hv : valid q = true
  · rw [if_pos hv] at h
    cases hout : q.output_queue_ with
    | nil => rw [hout] at h; cases h
    | cons x rest =>
      rw [hout] at h
      injection h with h
      subst h
      exact ⟨hv, rfl, rfl⟩
  · rw [if_neg hv] at h; cases h

/-! ## Runs -/

theorem map_fst_stamp (latency : Nat) (l : List (T × Nat)) :
    (l.map (stamp latency)).map Prod.fst = l.map Prod.fst := by
  induction l with
  | nil => rfl
  | cons a rest ih => simp [stamp]

theorem inv_start (depth latency : Nat) (h : depth < UINT32_SIZE) :
    Sim.Inv depth latency (Sim.start depth latency : Sim T) :=
  ⟨rfl, rfl, counted_construct depth latency h, [], [], rfl, rfl, rfl⟩

theorem step_write_eq (now : Nat) (x : T) (s : Sim T) :
    step (Op.write now x) s =
      Outcome.done
        { s with
          fifo := (write now x s.fifo).2
          accepted :=
            if (write now x s.fifo).1 then s.accepted ++ [(x, now)] else s.accepted } :=
  rfl

theorem step_update_eq (now : Nat) (s : Sim T) :
    step (Op.update now) s = Outcome.done { s with fifo := update now s.fifo } :=
  rfl

theorem step_read_done {s s' : Sim T} (h : step Op.read s = Outcome.done s') :
    ∃ e, read s.fifo = Outcome.done e ∧
      s' = { s with fifo := e.fifo, removed := s.removed ++ [e.tmp] } := by
  unfold step at h
  cases hr : read s.fifo with
  | done e =>
    rw [hr] at h
    injection h with h
    exact ⟨e, rfl, h.symm⟩
  | assert_failed => rw [hr] at h; cases h
  | undefined => rw [hr] at h; cases h

theorem step_peek_front_done {s s' : Sim T} (h : step Op.peek_front s = Outcome.done s') :
    valid s.fifo = true ∧ s' = s := by
  unfold step at h
  cases hr : peek_front s.fifo with
  | done r =>
    rw [hr] at h
    injection h with h
    obtain ⟨hv, -, hq⟩ := peek_front_done_inv hr
    refine ⟨hv, ?_⟩
    rw [← h, hq]
  | assert_failed => rw [hr] at h; cases h
  | undefined => rw [hr] at h; cases h

theorem step_inv {depth latency : Nat} {op : Op T} {s s' : Sim T}
    (hs : Sim.Inv depth latency s) (h : step op s = Outcome.done s') :
    Sim.Inv depth latency s' := by
  obtain ⟨hd, hl, hc, gone, pend, hacc, hgone, hpend⟩ := hs
  cases op with
  | write now x =>
    rw [step_write_eq] at h
    injection h with h
    subst h
    by_cases hf : full s.fifo = true
    · rw [write_of_full now x s.fifo hf]
      exact ⟨hd, hl, hc, gone, pend, by simpa using hacc, hgone, hpend⟩
    · have hf' : full s.fifo = false := by simpa using hf
      have hw := write_of_not_full now x s.fifo hf'
      refine ⟨?_, ?_, ?_, gone, pend ++ [(x, now)], ?_, ?_, ?_⟩
      · rw [hw]; exact hd
      · rw [hw]; exact hl
      · exact counted_write hc now x
      · rw [hw]; simp [hacc]
      · rw [hw]; exact hgone
      · rw [hw]; simp [hpend, stamp, hl]
  | read =>
    obtain ⟨e, hr, rfl⟩ := step_read_done h
    obtain ⟨-, hout, -, hfifo⟩ := read_done_inv hr
    refine ⟨?_, ?_, counted_read hc hr, gone, pend, hacc, ?_, ?_⟩
    · show e.fifo.depth_ = depth
      rw [hfifo]; exact hd
    · show e.fifo.latency_ = latency
      rw [hfifo]; exact hl
    · show gone.map Prod.fst = (s.removed ++ [e.tmp]) ++ e.fifo.output_queue_
      rw [hgone, hout]; simp
    · show e.fifo.input_queue_ = pend.map (stamp latency)
      rw [hfifo]; exact hpend
  | peek_front =>
    obtain ⟨-, rfl⟩ := step_peek_front_done h
    exact ⟨hd, hl, hc, gone, pend, hacc, hgone, hpend⟩
  | update now =>
    rw [step_update_eq] at h
    injection h with h
    subst h
    have hsplit : pend.map (stamp latency) =
        s.fifo.input_queue_.takeWhile (due now) ++ s.fifo.input_queue_.dropWhile (due now) := by
      rw [List.takeWhile_append_dropWhile]; exact hpend.symm
    obtain ⟨p1, p2, hp, hp1, hp2⟩ := List.map_eq_append_iff.mp hsplit
    refine ⟨hd, hl, counted_update hc now, gone ++ p1, p2, ?_, ?_, ?_⟩
    · show s.accepted = gone ++ p1 ++ p2
      rw [hacc, hp, List.append_assoc]
    · show (gone ++ p1).map Prod.fst = s.removed ++ (update now s.fifo).output_queue_
      rw [update_output, ← hp1, map_fst_stamp, List.map_append, hgone, List.append_assoc]
    · show (update now s.fifo).input_queue_ = p2.map (stamp latency)
      rw [update_input, hp2]

theorem run_cons_done {op : Op T} {rest : List (Op T)} {s s' : Sim T}
    (h : run (op :: rest) s = Outcome.done s') :
    ∃ s1, step op s = Outcome.done s1 ∧ run rest s1 = Outcome.done s' := by
  unfold run at h
  cases hs : step op s with
  | done s1 => rw [hs] at h; exact ⟨s1, rfl, h⟩
  | assert_failed => rw [hs] at h; cases h
  | undefined => rw [hs] at h; cases h

theorem run_append_done {tr1 tr2 : List (Op T)} {s s' : Sim T}
    (h : run (tr1 ++ tr2) s = Outcome.done s') :
    ∃ s1, run tr1 s = Outcome.done s1 ∧ run tr2 s1 = Outcome.done s' := by
  induction tr1 generalizing s with
  | nil => exact ⟨s, rfl, h⟩
  | cons op rest ih =>
    obtain ⟨s1, h1, h2⟩ := run_cons_done (by simpa using h)
    obtain ⟨s2, h3, h4⟩ := ih h2
    refine ⟨s2, ?_, h4⟩
    show run (op :: rest) s = _
    unfold run
    rw [h1]
    exact h3

theorem run_inv {depth latency : Nat} {tr : List (Op T)} {s s' : Sim T}
    (hs : Sim.Inv depth latency s) (h : run tr s = Outcome.done s') :
    Sim.Inv depth latency s' := by
  induction tr generalizing s with
  | nil =>
    injection h with h
    subst h
    exact hs
  | cons op rest ih =>
    obtain ⟨s1, h1, h2⟩ := run_cons_done h
    exact ih (step_inv hs h1) h2

/-! ## The operations one by one -/

/-- C2: a `write` on a full queue (`size_ >= depth_`) returns `false` and leaves every
field of the queue as it was, whatever the item and the clock value. -/
theorem write_full_rejected (now : Nat) (x : T) (q : spsc_latency_fifo T)
    (h : q.size_ ≥ q.depth_) : write now x q = (false, q) :=
  write_of_full now x q (by simpa [full] using h)

theorem write_full_rejected_witness :
    (2 : Nat) ≥ 2 ∧
      write 9 12 (⟨2, 5, 2, 1, [10], [(11, 6)]⟩ : spsc_latency_fifo Nat) =
        (false, ⟨2, 5, 2, 1, [10], [(11, 6)]⟩) :=
  ⟨by decide, write_full_rejected 9 12 ⟨2, 5, 2, 1, [10], [(11, 6)]⟩ (by decide)⟩

/-- An accepted `write` at any clock value `t`: on a queue with `size_ < depth_` (`depth_`
a `uint32_t`) it returns `true`, appends the single entry `(x, (t + latency_) mod 2^32)`
at the tail of `input_queue_` (which is `(x, t + latency_)` whenever that sum fits 32
bits), raises `size_` by exactly 1 and leaves the other fields as they were. -/
theorem write_accepted_in_range (t : Nat) (x : T) (q : spsc_latency_fifo T)
    (h : q.size_ < q.depth_) (hd : q.depth_ < UINT32_SIZE) :
    (write t x q).1 = true ∧
      (write t x q).2.input_queue_ =
        q.input_queue_ ++ [(x, (t + q.latency_) % UINT32_SIZE)] ∧
      (t + q.latency_ < UINT32_SIZE →
        (write t x q).2.input_queue_ = q.input_queue_ ++ [(x, t + q.latency_)]) ∧
      (write t x q).2.size_ = q.size_ + 1 ∧
      (write t x q).2.output_queue_ = q.output_queue_ ∧
      (write t x q).2.output_size_ = q.output_size_ ∧
      (write t x q).2.depth_ = q.depth_ ∧
      (write t x q).2.latency_ = q.latency_ := by
  have hf : full q = false := by simpa [full] using h
  rw [write_of_not_full t x q hf]
  refine ⟨rfl, rfl, ?_, ?_, rfl, rfl, rfl, rfl⟩
  · intro hfit
    show q.input_queue_ ++ [(x, (t + q.latency_) % UINT32_SIZE)] = _
    rw [Nat.mod_eq_of_lt hfit]
  · show (q.size_ + 1) % UINT32_SIZE = q.size_ + 1
    exact Nat.mod_eq_of_lt (by omega)

/-- C4 at a state the header reaches with its own clock (depth 2, latency 0: `write(7)`,
`update()`): `read()` pops the head `7` from `output_queue_` and lowers both counters, but
hands no value back to its caller. -/
theorem read_hands_back_nothing :
    run [Op.write getCurrentTime 7, Op.update getCurrentTime] (Sim.start 2 0) =
        Outcome.done
          { fifo := (⟨2, 0, 1, 1, [7], []⟩ : spsc_latency_fifo Nat)
            accepted := [(7, 0)]
            removed := [] } ∧
      valid (⟨2, 0, 1, 1, [7], []⟩ : spsc_latency_fifo Nat) = true ∧
      read (⟨2, 0, 1, 1, [7], []⟩ : spsc_latency_fifo Nat) =
        Outcome.done { tmp := 7, result := none, fifo := ⟨2, 0, 0, 0, [], []⟩ } := by
  decide

/-- C5, as stated, fails on a freshly constructed queue: `valid()` is false there, and
neither `read()` nor `peek_front()` comes back with a result. -/
theorem read_peek_invalid_do_not_return :
    valid (spsc_latency_fifo.construct 2 1 : spsc_latency_fifo Nat) = false ∧
      (¬ ∃ e, read (spsc_latency_fifo.construct 2 1 : spsc_latency_fifo Nat) =
        Outcome.done e) ∧
      (¬ ∃ r, peek_front (spsc_latency_fifo.construct 2 1 : spsc_latency_fifo Nat) =
        Outcome.done r) := by
  refine ⟨by decide, ?_, ?_⟩
  · rintro ⟨e, he⟩
    have h := (read_done_inv he).1
    revert h
    decide
  · rintro ⟨r, hr⟩
    have h := (peek_front_done_inv hr).1
    revert h
    decide

/-- C5, amended: in every state in which `valid()` is false, `read()` and `peek_front()`
both stop at their `assert(this->valid())`: the call is aborted, no result and no queue
state come back. -/
theorem read_peek_invalid_assert (q : spsc_latency_fifo T) (h : valid q = false) :
    read q = Outcome.assert_failed ∧ peek_front q = Outcome.assert_failed := by
  constructor
  · simp [read, h]
  · simp [peek_front, h]

theorem read_peek_invalid_assert_witness :
    valid (⟨2, 5, 1, 0, [], [(11, 6)]⟩ : spsc_latency_fifo Nat) = false ∧
      read (⟨2, 5, 1, 0, [], [(11, 6)]⟩ : spsc_latency_fifo Nat) = Outcome.assert_failed ∧
      peek_front (⟨2, 5, 1, 0, [], [(11, 6)]⟩ : spsc_latency_fifo Nat) =
        Outcome.assert_failed :=
  ⟨by decide, read_peek_invalid_assert ⟨2, 5, 1, 0, [], [(11, 6)]⟩ (by decide)⟩

/-- C6: `update()` at clock value `now` splits `input_queue_` into a prefix `moved` and
the rest `kept`, where every entry of `moved` has eligible time `<= now` and the first
entry of `kept`, if there is one, has eligible time `> now` (so `moved` is the longest due
prefix); afterwards `output_queue_` is the old one followed by the items of `moved` in the
same order, `input_queue_` is `kept`, and `size_`, `depth_`, `latency_` are unchanged.
With `input_queue_` empty the call changes nothing. -/
theorem update_moves_longest_due_prefix (now : Nat) (q : spsc_latency_fifo T) :
    (∃ moved kept : List (T × Nat),
      q.input_queue_ = moved ++ kept ∧
      (∀ e ∈ moved, e.2 ≤ now) ∧
      (∀ e, kept.head? = some e → now < e.2) ∧
      (update now q).output_queue_ = q.output_queue_ ++ moved.map Prod.fst ∧
      (update now q).input_queue_ = kept) ∧
    (update now q).size_ = q.size_ ∧
    (update now q).depth_ = q.depth_ ∧
    (update now q).latency_ = q.latency_ ∧
    (q.input_queue_ = [] → update now q = q) := by
  refine ⟨⟨q.input_queue_.takeWhile (due now), q.input_queue_.dropWhile (due now),
    (List.takeWhile_append_dropWhile _ _).symm, ?_, ?_, update_output now q,
    update_input now q⟩, rfl, rfl, rfl, ?_⟩
  · intro e he
    have := List.mem_takeWhile_imp he
    simpa [due] using this
  · intro e he
    have := List.head?_dropWhile_not (due now) q.input_queue_
    rw [he] at this
    simpa [due] using this
  · intro hnil
    cases q with
    | mk d l sz os out inp =>
      simp only at hnil
      subst hnil
      rfl

/-! ## Reachable states -/

theorem inv_gone_length {s : Sim T} {gone : List (T × Nat)}
    (hgone : gone.map Prod.fst = s.removed ++ s.fifo.output_queue_) :
    gone.length = s.removed.length + s.fifo.output_queue_.length := by
  have := congrArg List.length hgone
  simpa using this

theorem inv_conservation {depth latency : Nat} {s : Sim T} (hs : Sim.Inv depth latency s) :
    s.accepted.map Prod.fst =
      s.removed ++ s.fifo.output_queue_ ++ s.fifo.input_queue_.map Prod.fst := by
  obtain ⟨-, -, -, gone, pend, hacc, hgone, hpend⟩ := hs
  rw [hacc, hpend, map_fst_stamp, List.map_append, hgone]

/-- C1 (FIFO order): take any run of `write`, `update`, `read` and `peek_front` calls, at
any clock values, on a freshly constructed queue, in which every `read`/`peek_front` is
made with `valid()` true (the run completes) and after which the queue is drained
(`empty()` holds).  The items removed by `read`, in the order of the reads, are exactly
the items whose `write` returned `true`, in the order of the writes. -/
theorem fifo_order (depth latency : Nat) (hd : depth < UINT32_SIZE) (tr : List (Op T))
    (s : Sim T) (hrun : run tr (Sim.start depth latency) = Outcome.done s)
    (hdrained : empty s.fifo = true) :
    s.removed = s.accepted.map Prod.fst := by
  have hs := run_inv (inv_start depth latency hd) hrun
  have hcons := inv_conservation hs
  have hsize : s.fifo.size_ = 0 := by simpa [empty] using hdrained
  have hc := hs.counted.size_eq
  have hin : s.fifo.input_queue_ = [] := List.eq_nil_of_length_eq_zero (by omega)
  have hout : s.fifo.output_queue_ = [] := List.eq_nil_of_length_eq_zero (by omega)
  rw [hcons, hin, hout]
  simp

theorem fifo_order_witness :
    run [Op.write 0 10, Op.write 1 11, Op.update 5, Op.write 2 12, Op.read, Op.write 6 13,
        Op.update 11, Op.read, Op.peek_front, Op.read] (Sim.start 2 5) =
      Outcome.done
        { fifo := (⟨2, 5, 0, 0, [], []⟩ : spsc_latency_fifo Nat)
          accepted := [(10, 0), (11, 1), (13, 6)]
          removed := [10, 11, 13] } ∧
    [10, 11, 13] = [((10 : Nat), 0), (11, 1), (13, 6)].map Prod.fst :=
  ⟨by decide,
    fifo_order 2 5 (by decide)
      [Op.write 0 10, Op.write 1 11, Op.update 5, Op.write 2 12, Op.read, Op.write 6 13,
        Op.update 11, Op.read, Op.peek_front, Op.read]
      { fifo := (⟨2, 5, 0, 0, [], []⟩ : spsc_latency_fifo Nat)
        accepted := [(10, 0), (11, 1), (13, 6)]
        removed := [10, 11, 13] }
      (by decide) (by decide)⟩

/-- C9 (size invariant): in every state a freshly constructed queue (`depth` a `uint32_t`)
reaches by a run of `write`, `update`, `peek_front` and `read` calls, the latter two made
only with `valid()` true, `size_` is the length of `input_queue_` plus the length of
`output_queue_`. -/
theorem size_invariant (depth latency : Nat) (hd : depth < UINT32_SIZE) (tr : List (Op T))
    (s : Sim T) (hrun : run tr (Sim.start depth latency) = Outcome.done s) :
    s.fifo.size_ = s.fifo.input_queue_.length + s.fifo.output_queue_.length :=
  (run_inv (inv_start depth latency hd) hrun).counted.size_eq

theorem size_invariant_witness :
    run [Op.write 0 10, Op.write 1 11, Op.update 5, Op.write 2 12, Op.peek_front, Op.read,
        Op.write 6 13] (Sim.start 4 5) =
      Outcome.done
        { fifo := (⟨4, 5, 3, 0, [], [(11, 6), (12, 7), (13, 11)]⟩ : spsc_latency_fifo Nat)
          accepted := [(10, 0), (11, 1), (12, 2), (13, 6)]
          removed := [10] } ∧
    (3 : Nat) = [((11 : Nat), 6), (12, 7), (13, 11)].length + ([] : List Nat).length :=
  ⟨by decide,
    size_invariant 4 5 (by decide)
      [Op.write 0 10, Op.write 1 11, Op.update 5, Op.write 2 12, Op.peek_front, Op.read,
        Op.write 6 13]
      { fifo := (⟨4, 5, 3, 0, [], [(11, 6), (12, 7), (13, 11)]⟩ : spsc_latency_fifo Nat)
        accepted := [(10, 0), (11, 1), (12, 2), (13, 6)]
        removed := [10] }
      (by decide)⟩

/-- C10 (capacity invariant): in every state a queue constructed with capacity `C` (a
`uint32_t`) reaches by a run of `write`, `update`, `peek_front` and `read` calls, the
latter two made only with `valid()` true, `size_ <= C`, and `input_queue_` and
`output_queue_` together hold at most `C` items. -/
theorem capacity_invariant (C latency : Nat) (hC : C < UINT32_SIZE) (tr : List (Op T))
    (s : Sim T) (hrun : run tr (Sim.start C latency) = Outcome.done s) :
    s.fifo.size_ ≤ C ∧ s.fifo.input_queue_.length + s.fifo.output_queue_.length ≤ C := by
  have hs := run_inv (inv_start C latency hC) hrun
  have h1 := hs.counted.size_eq
  have h2 := hs.counted.size_le
  have h3 := hs.depth_eq
  omega

theorem capacity_invariant_witness :
    run [Op.write 0 10, Op.write 1 11, Op.write 1 12, Op.update 5, Op.write 5 13, Op.read,
        Op.write 6 14, Op.write 6 15] (Sim.start 2 5) =
      Outcome.done
        { fifo := (⟨2, 5, 2, 0, [], [(11, 6), (14, 11)]⟩ : spsc_latency_fifo Nat)
          accepted := [(10, 0), (11, 1), (14, 6)]
          removed := [10] } ∧
    ((2 : Nat) ≤ 2 ∧
      [((11 : Nat), 6), (14, 11)].length + ([] : List Nat).length ≤ 2) :=
  ⟨by decide,
    capacity_invariant 2 5 (by decide)
      [Op.write 0 10, Op.write 1 11, Op.write 1 12, Op.update 5, Op.write 5 13, Op.read,
        Op.write 6 14, Op.write 6 15]
      { fifo := (⟨2, 5, 2, 0, [], [(11, 6), (14, 11)]⟩ : spsc_latency_fifo Nat)
        accepted := [(10, 0), (11, 1), (14, 6)]
        removed := [10] }
      (by decide)⟩

/-! ## Latency -/

theorem takeWhile_length_le_index (p : α → Bool) :
    ∀ (l : List α) (j : Nat) (e : α), l[j]? = some e → p e = false →
      (l.takeWhile p).length ≤ j
  | [], j, e, h, _ => by simp at h
  | a :: rest, 0, e, h, hp => by
    simp at h
    subst h
    simp [List.takeWhile_cons, hp]
  | a :: rest, j + 1, e, h, hp => by
    by_cases ha : p a = true
    · simp only [List.takeWhile_cons, ha, if_true, List.length_cons]
      have := takeWhile_length_le_index p rest j e (by simpa using h) hp
      omega
    · simp [List.takeWhile_cons, ha]

theorem inv_pending_entry {depth latency n : Nat} {s : Sim T} {p : T × Nat}
    (hs : Sim.Inv depth latency s) (hn : s.accepted[n]? = some p)
    (hk : s.removed.length + s.fifo.output_queue_.length ≤ n) :
    s.fifo.input_queue_[n - (s.removed.length + s.fifo.output_queue_.length)]? =
      some (stamp latency p) := by
  obtain ⟨-, -, -, gone, pend, hacc, hgone, hpend⟩ := hs
  have hlen := inv_gone_length hgone
  rw [hacc, List.getElem?_append_right (by omega)] at hn
  rw [hpend, List.getElem?_map, ← hlen, hn]
  rfl

theorem write_output_queue (now : Nat) (x : T) (q : spsc_latency_fifo T) :
    (write now x q).2.output_queue_ = q.output_queue_ := by
  by_cases hf : full q = true
  · rw [write_of_full now x q hf]
  · rw [write_of_not_full now x q (by simpa using hf)]

theorem run_preserves (P : Sim T → Prop) (Q : Op T → Prop)
    (hstep : ∀ op s s', Q op → P s → step op s = Outcome.done s' → P s') :
    ∀ (tr : List (Op T)) (s s' : Sim T), (∀ op ∈ tr, Q op) → P s →
      run tr s = Outcome.done s' → P s'
  | [], s, s', _, hP, h => by
    injection h with h
    subst h
    exact hP
  | op :: rest, s, s', hQ, hP, h => by
    obtain ⟨s1, h1, h2⟩ := run_cons_done h
    exact run_preserves P Q hstep rest s1 s'
      (fun o ho => hQ o (List.mem_cons_of_mem _ ho))
      (hstep op s s1 (hQ op (List.mem_cons_self _ _)) hP h1) h2

/-- While every `update` runs before the eligible time `t + latency` of the item accepted
as number `n`, that item stays behind the items that have left `input_queue_`. -/
theorem step_keeps_pending {depth latency n t : Nat} {x : T} {op : Op T} {s s' : Sim T}
    (hfit : t + latency < UINT32_SIZE)
    (hop : ∀ now, op = Op.update now → now < t + latency)
    (hs : Sim.Inv depth latency s ∧ s.accepted[n]? = some (x, t) ∧
      s.removed.length + s.fifo.output_queue_.length ≤ n)
    (h : step op s = Outcome.done s') :
    Sim.Inv depth latency s' ∧ s'.accepted[n]? = some (x, t) ∧
      s'.removed.length + s'.fifo.output_queue_.length ≤ n := by
  obtain ⟨hinv, hn, hk⟩ := hs
  refine ⟨step_inv hinv h, ?_⟩
  cases op with
  | write now y =>
    rw [step_write_eq] at h
    injection h with h
    subst h
    refine ⟨?_, ?_⟩
    · show (if (write now y s.fifo).1 then s.accepted ++ [(y, now)] else s.accepted)[n]? = _
      split
      · have hlt : n < s.accepted.length := by
          obtain ⟨hlt, -⟩ := List.getElem?_eq_some_iff.mp hn
          exact hlt
        rw [List.getElem?_append_left hlt]
        exact hn
      · exact hn
    · show s.removed.length + (write now y s.fifo).2.output_queue_.length ≤ n
      rw [write_output_queue]
      exact hk
  | read =>
    obtain ⟨e, hr, rfl⟩ := step_read_done h
    obtain ⟨-, hout, -, -⟩ := read_done_inv hr
    refine ⟨hn, ?_⟩
    show (s.removed ++ [e.tmp]).length + e.fifo.output_queue_.length ≤ n
    rw [hout] at hk
    simp only [List.length_append, List.length_cons, List.length_nil] at hk ⊢
    omega
  | peek_front =>
    obtain ⟨-, rfl⟩ := step_peek_front_done h
    exact ⟨hn, hk⟩
  | update now =>
    rw [step_update_eq] at h
    injection h with h
    subst h
    refine ⟨hn, ?_⟩
    show s.removed.length + (update now s.fifo).output_queue_.length ≤ n
    have hentry := inv_pending_entry hinv hn hk
    have hnot : due now (stamp latency (x, t)) = false := by
      have := hop now rfl
      simp only [due, stamp, Nat.mod_eq_of_lt hfit]
      simpa using this
    have hle := takeWhile_length_le_index (due now) _ _ _ hentry hnot
    rw [update_output]
    simp only [List.length_append, List.length_map]
    omega

/-- An item accepted at a clock value `t` with `t + latency <= 0xffffffff` stays in
`input_queue_`, behind everything that has left it, as long as every later `update` runs
at a clock value `now < t + latency`; `valid()` is then false if it is the only item of
the queue, or if all items accepted before it have been read. -/
theorem stays_pending_in_range (depth latency : Nat) (hd : depth < UINT32_SIZE)
    (tr1 : List (Op T)) (s1 : Sim T) (t : Nat) (x : T) (tr2 : List (Op T)) (s : Sim T)
    (h1 : run tr1 (Sim.start depth latency) = Outcome.done s1)
    (hroom : full s1.fifo = false)
    (hfit : t + latency < UINT32_SIZE)
    (hearly : ∀ now, Op.update now ∈ tr2 → now < t + latency)
    (h2 : run (Op.write t x :: tr2) s1 = Outcome.done s) :
    s.accepted.map Prod.fst =
        s.removed ++ s.fifo.output_queue_ ++ s.fifo.input_queue_.map Prod.fst ∧
      s.accepted[s1.accepted.length]? = some (x, t) ∧
      s.removed.length + s.fifo.output_queue_.length ≤ s1.accepted.length ∧
      s.fifo.input_queue_[s1.accepted.length -
          (s.removed.length + s.fifo.output_queue_.length)]? = some (x, t + latency) ∧
      (s.fifo.size_ = 1 → valid s.fifo = false) ∧
      (s.removed.length = s1.accepted.length → valid s.fifo = false) := by
  have hinv1 := run_inv (inv_start depth latency hd) h1
  obtain ⟨s2, hw, hrest⟩ := run_cons_done h2
  have hs2 : Sim.Inv depth latency s2 ∧ s2.accepted[s1.accepted.length]? = some (x, t) ∧
      s2.removed.length + s2.fifo.output_queue_.length ≤ s1.accepted.length := by
    refine ⟨step_inv hinv1 hw, ?_⟩
    rw [step_write_eq, write_of_not_full t x s1.fifo hroom] at hw
    injection hw with hw
    subst hw
    refine ⟨?_, ?_⟩
    · show (s1.accepted ++ [(x, t)])[s1.accepted.length]? = _
      rw [List.getElem?_append_right (Nat.le_refl _)]
      simp
    · show s1.removed.length + s1.fifo.output_queue_.length ≤ s1.accepted.length
      obtain ⟨-, -, -, gone, pend, hacc, hgone, -⟩ := hinv1
      have := inv_gone_length hgone
      rw [hacc, List.length_append]
      omega
  obtain ⟨hinv, hn, hk⟩ :=
    run_preserves
      (fun u => Sim.Inv depth latency u ∧ u.accepted[s1.accepted.length]? = some (x, t) ∧
        u.removed.length + u.fifo.output_queue_.length ≤ s1.accepted.length)
      (fun op => ∀ now, op = Op.update now → now < t + latency)
      (fun op u u' hop hu hstep => step_keeps_pending hfit hop hu hstep)
      tr2 s2 s (fun op hop now heq => hearly now (heq ▸ hop)) hs2 hrest
  have hentry := inv_pending_entry hinv hn hk
  have hstamp : stamp latency (x, t) = (x, t + latency) := by
    simp only [stamp, Nat.mod_eq_of_lt hfit]
  rw [hstamp] at hentry
  have hin : 0 < s.fifo.input_queue_.length := by
    obtain ⟨hlt, -⟩ := List.getElem?_eq_some_iff.mp hentry
    omega
  have hsz := hinv.counted.size_eq
  have hos := hinv.counted.output_size_eq
  refine ⟨inv_conservation hinv, hn, hk, hentry, ?_, ?_⟩
  · intro hone
    simp only [valid, decide_eq_false_iff_not]
    omega
  · intro hall
    simp only [valid, decide_eq_false_iff_not]
    omega

theorem clock_values_append (tr1 tr2 : List (Op T)) :
    clock_values (tr1 ++ tr2) = clock_values tr1 ++ clock_values tr2 := by
  induction tr1 with
  | nil => rfl
  | cons op rest ih =>
    cases op <;> simp [clock_values, ih]

/-- The clock values of the accepted items are among the clock values of the run, in the
same order. -/
theorem accepted_times_sublist :
    ∀ (tr : List (Op T)) (s s' : Sim T), run tr s = Outcome.done s' →
      (s'.accepted.map Prod.snd).Sublist (s.accepted.map Prod.snd ++ clock_values tr)
  | [], s, s', h => by
    injection h with h
    subst h
    simp [clock_values]
  | op :: rest, s, s', h => by
    obtain ⟨s1, h1, h2⟩ := run_cons_done h
    have ih := accepted_times_sublist rest s1 s' h2
    cases op with
    | write now y =>
      rw [step_write_eq] at h1
      injection h1 with h1
      subst h1
      simp only [clock_values]
      by_cases hw : (write now y s.fifo).1 = true
      · simp only [hw, if_true, List.map_append, List.map_cons, List.map_nil,
          List.append_assoc, List.singleton_append] at ih
        exact ih
      · simp only [hw] at ih
        exact ih.trans ((List.sublist_cons_self _ _).append_left _)
    | read =>
      obtain ⟨e, -, rfl⟩ := step_read_done h1
      exact ih
    | peek_front =>
      obtain ⟨-, rfl⟩ := step_peek_front_done h1
      exact ih
    | update now =>
      rw [step_update_eq] at h1
      injection h1 with h1
      subst h1
      simp only [clock_values]
      exact ih.trans ((List.sublist_cons_self _ _).append_left _)

/-- C8 (promoted as soon as due): run any calls on a fresh queue under a non-decreasing
clock and end with an `update` at clock value `now`.  Every item accepted by a `write` at
a clock value `t` with `t + latency <= now` has then left `input_queue_`: it is one of
the items that were read or are in `output_queue_` (at its place in the order of the
writes), and when it has not been read it is in `output_queue_`. -/
theorem promoted_when_due (depth latency : Nat) (hd : depth < UINT32_SIZE)
    (tr : List (Op T)) (now : Nat) (s : Sim T) (hnow : now < UINT32_SIZE)
    (hclock : (clock_values (tr ++ [Op.update now])).Pairwise (· ≤ ·))
    (hrun : run (tr ++ [Op.update now]) (Sim.start depth latency) = Outcome.done s)
    (i : Nat) (x : T) (t : Nat) (hi : s.accepted[i]? = some (x, t))
    (hdue : t + latency ≤ now) :
    s.accepted.map Prod.fst =
        s.removed ++ s.fifo.output_queue_ ++ s.fifo.input_queue_.map Prod.fst ∧
      i < s.removed.length + s.fifo.output_queue_.length ∧
      (s.removed ++ s.fifo.output_queue_)[i]? = some x ∧
      (s.removed.length ≤ i → s.fifo.output_queue_[i - s.removed.length]? = some x) := by
  have hinv := run_inv (inv_start depth latency hd) hrun
  have hsub := accepted_times_sublist _ _ _ hrun
  have hsorted : (s.accepted.map Prod.snd).Pairwise (· ≤ ·) := by
    refine List.Pairwise.sublist ?_ hclock
    simpa [Sim.start] using hsub
  obtain ⟨s1, -, hlast⟩ := run_append_done hrun
  obtain ⟨s2, hstep, hnil⟩ := run_cons_done hlast
  injection hnil with hnil
  subst hnil
  rw [step_update_eq] at hstep
  injection hstep with hstep
  have hinput : s2.fifo.input_queue_ = s1.fifo.input_queue_.dropWhile (due now) := by
    rw [← hstep]
    exact update_input now s1.fifo
  have hcons := inv_conservation hinv
  obtain ⟨-, -, -, gone, pend, hacc, hgone, hpend⟩ := hinv
  have hlen := inv_gone_length hgone
  have hlt : i < gone.length := by
    by_contra hge
    have hge : gone.length ≤ i := Nat.le_of_not_lt hge
    rw [hacc, List.getElem?_append_right hge] at hi
    have hmem : (x, t) ∈ pend := List.getElem?_mem hi
    rw [hacc, List.map_append, List.pairwise_append] at hsorted
    have hpsorted := hsorted.2.1
    cases pend with
    | nil => cases hmem
    | cons p rest =>
      have hpt : p.2 ≤ t := by
        rcases List.mem_cons.mp hmem with heq | hin
        · rw [← heq]
        · rw [List.map_cons, List.pairwise_cons] at hpsorted
          exact hpsorted.1 t (List.mem_map.mpr ⟨(x, t), hin, rfl⟩)
      have hhead := List.head?_dropWhile_not (due now) s1.fifo.input_queue_
      rw [← hinput, hpend] at hhead
      simp only [List.map_cons, List.head?_cons, due, stamp] at hhead
      have hfit : (p.2 + latency) % UINT32_SIZE = p.2 + latency :=
        Nat.mod_eq_of_lt (by omega)
      rw [hfit] at hhead
      simp at hhead
      omega
  have hx : (s2.removed ++ s2.fifo.output_queue_)[i]? = some x := by
    rw [← hgone, List.getElem?_map]
    rw [hacc, List.getElem?_append_left hlt] at hi
    rw [hi]
    rfl
  refine ⟨hcons, by omega, hx, ?_⟩
  intro hle
  rw [List.getElem?_append_right hle] at hx
  exact hx

theorem promoted_when_due_witness :
    run ([Op.write 0 10, Op.write 1 11, Op.update 5, Op.read, Op.write 5 12] ++
        [Op.update 6]) (Sim.start 3 5) =
      Outcome.done
        { fifo := (⟨3, 5, 2, 1, [11], [(12, 10)]⟩ : spsc_latency_fifo Nat)
          accepted := [(10, 0), (11, 1), (12, 5)]
          removed := [10] } ∧
    (1 < [(10 : Nat)].length + [(11 : Nat)].length ∧
      [(11 : Nat)][1 - [(10 : Nat)].length]? = some 11) :=
  have h :=
    promoted_when_due 3 5 (by decide)
      [Op.write 0 10, Op.write 1 11, Op.update 5, Op.read, Op.write 5 12] 6
      { fifo := (⟨3, 5, 2, 1, [11], [(12, 10)]⟩ : spsc_latency_fifo Nat)
        accepted := [(10, 0), (11, 1), (12, 5)]
        removed := [10] }
      (by decide) (by decide) (by decide) 1 11 1 (by decide) (by decide)
  ⟨by decide, h.2.1, h.2.2.2 (by decide)⟩

/-! ## Successive updates -/

theorem due_mono {n1 n2 : Nat} (h : n1 ≤ n2) (e : T × Nat) (hd : due n1 e = true) :
    due n2 e = true := by
  simp only [due, decide_eq_true_eq] at hd ⊢
  omega

theorem update_loop_compose {n1 n2 : Nat} (h : n1 ≤ n2) (l : List (T × Nat)) (out : List T)
    (n : Nat) :
    update_loop n2 (update_loop n1 l out n).1 (update_loop n1 l out n).2.1
        (update_loop n1 l out n).2.2 =
      update_loop n2 l out n := by
  induction l generalizing out n with
  | nil => rfl
  | cons e rest ih =>
    by_cases hd : due n1 e = true
    · have hd2 := due_mono h e hd
      simp only [update_loop, hd, hd2, if_true]
      exact ih _ _
    · simp only [update_loop, hd]
      rfl

/-- C20: for every state and all clock values `n1 <= n2`, `update()` at `n1` followed by
`update()` at `n2` leaves the same state as a single `update()` at `n2`; in particular
`update()` run twice at the same clock value leaves the state of the first run. -/
theorem update_compose (n1 n2 : Nat) (q : spsc_latency_fifo T) (h : n1 ≤ n2) :
    update n2 (update n1 q) = update n2 q ∧ update n2 (update n2 q) = update n2 q := by
  constructor
  · simp only [update]
    rw [update_loop_compose h]
  · simp only [update]
    rw [update_loop_compose (Nat.le_refl n2)]

theorem update_compose_witness :
    update 7 (update 6 (⟨4, 5, 4, 0, [], [(10, 5), (11, 6), (12, 7), (13, 9)]⟩ :
        spsc_latency_fifo Nat)) =
      ⟨4, 5, 4, 3, [10, 11, 12], [(13, 9)]⟩ ∧
    update 7 (⟨4, 5, 4, 0, [], [(10, 5), (11, 6), (12, 7), (13, 9)]⟩ :
        spsc_latency_fifo Nat) =
      ⟨4, 5, 4, 3, [10, 11, 12], [(13, 9)]⟩ :=
  ⟨((update_compose 6 7
      (⟨4, 5, 4, 0, [], [(10, 5), (11, 6), (12, 7), (13, 9)]⟩ : spsc_latency_fifo Nat)
      (by decide)).1).trans (by decide), by decide⟩

/-! ## The queries -/

/-- C13: in every state in which `valid()` is true and `output_size_` counts
`output_queue_` (as it does in every reachable state), `peek_front()` returns the head
item of `output_queue_`, the item the next `read()` removes, and the queue after the call
is the queue before it, field by field. -/
theorem peek_front_pure (q : spsc_latency_fifo T) (hv : valid q = true)
    (hcount : q.output_size_ = q.output_queue_.length) :
    ∃ x, q.output_queue_.head? = some x ∧ peek_front q = Outcome.done (x, q) ∧
      ∃ e, read q = Outcome.done e ∧ e.tmp = x := by
  have hpos : 0 < q.output_size_ := by simpa [valid] using hv
  cases hout : q.output_queue_ with
  | nil =>
    rw [hout] at hcount
    simp at hcount
    omega
  | cons x rest =>
    refine ⟨x, rfl, ?_, _, read_of_cons hv hout, rfl⟩
    simp [peek_front, hv, hout]

theorem peek_front_pure_witness :
    peek_front (⟨4, 5, 3, 2, [10, 11], [(12, 9)]⟩ : spsc_latency_fifo Nat) =
        Outcome.done (10, ⟨4, 5, 3, 2, [10, 11], [(12, 9)]⟩) ∧
      ∃ x, [(10 : Nat), 11].head? = some x ∧
        peek_front (⟨4, 5, 3, 2, [10, 11], [(12, 9)]⟩ : spsc_latency_fifo Nat) =
          Outcome.done (x, ⟨4, 5, 3, 2, [10, 11], [(12, 9)]⟩) ∧
        ∃ e, read (⟨4, 5, 3, 2, [10, 11], [(12, 9)]⟩ : spsc_latency_fifo Nat) =
          Outcome.done e ∧ e.tmp = x :=
  ⟨by decide,
    peek_front_pure (⟨4, 5, 3, 2, [10, 11], [(12, 9)]⟩ : spsc_latency_fifo Nat)
      (by decide) (by decide)⟩

/-- C14: in every state a freshly constructed queue (`depth` a `uint32_t`) reaches by a
run of `write`, `update`, `read` and `peek_front` calls, the latter two made only with
`valid()` true, `output_size_` is the length of `output_queue_`, and `valid()` returns
true exactly when `output_queue_` is non-empty. -/
theorem valid_iff_visible (depth latency : Nat) (hd : depth < UINT32_SIZE)
    (tr : List (Op T)) (s : Sim T)
    (hrun : run tr (Sim.start depth latency) = Outcome.done s) :
    s.fifo.output_size_ = s.fifo.output_queue_.length ∧
      (valid s.fifo = true ↔ s.fifo.output_queue_ ≠ []) := by
  have hc := (run_inv (inv_start depth latency hd) hrun).counted.output_size_eq
  refine ⟨hc, ?_⟩
  simp only [valid, decide_eq_true_eq, hc]
  cases s.fifo.output_queue_ <;> simp

theorem valid_iff_visible_witness :
    run [Op.write 0 10, Op.write 1 11, Op.update 5, Op.write 2 12, Op.update 6, Op.read]
        (Sim.start 4 5) =
      Outcome.done
        { fifo := (⟨4, 5, 2, 1, [11], [(12, 7)]⟩ : spsc_latency_fifo Nat)
          accepted := [(10, 0), (11, 1), (12, 2)]
          removed := [10] } ∧
    ((1 : Nat) = [(11 : Nat)].length ∧
      (valid (⟨4, 5, 2, 1, [11], [(12, 7)]⟩ : spsc_latency_fifo Nat) = true ↔
        [(11 : Nat)] ≠ [])) :=
  ⟨by decide,
    valid_iff_visible 4 5 (by decide)
      [Op.write 0 10, Op.write 1 11, Op.update 5, Op.write 2 12, Op.update 6, Op.read]
      { fifo := (⟨4, 5, 2, 1, [11], [(12, 7)]⟩ : spsc_latency_fifo Nat)
        accepted := [(10, 0), (11, 1), (12, 2)]
        removed := [10] }
      (by decide)⟩

/-- C15: in every reachable state (fresh queue, `depth` a `uint32_t`, any run of calls
that completes) in which `input_queue_` is non-empty and `output_queue_` is empty,
`empty()` returns false and `valid()` returns false. -/
theorem pending_only_not_empty_not_valid (depth latency : Nat) (hd : depth < UINT32_SIZE)
    (tr : List (Op T)) (s : Sim T)
    (hrun : run tr (Sim.start depth latency) = Outcome.done s)
    (hpending : s.fifo.input_queue_ ≠ []) (hvisible : s.fifo.output_queue_ = []) :
    empty s.fifo = false ∧ valid s.fifo = false := by
  have hc := (run_inv (inv_start depth latency hd) hrun).counted
  have h1 := hc.size_eq
  have h2 := hc.output_size_eq
  have hlen : 0 < s.fifo.input_queue_.length := List.length_pos.mpr hpending
  rw [hvisible] at h1 h2
  simp only [List.length_nil] at h1 h2
  constructor
  · simp only [empty, decide_eq_false_iff_not]
    omega
  · simp only [valid, decide_eq_false_iff_not]
    omega

theorem pending_only_not_empty_not_valid_witness :
    run [Op.write 0 10, Op.update 5, Op.read, Op.write 5 11, Op.update 9]
        (Sim.start 4 5) =
      Outcome.done
        { fifo := (⟨4, 5, 1, 0, [], [(11, 10)]⟩ : spsc_latency_fifo Nat)
          accepted := [(10, 0), (11, 5)]
          removed := [10] } ∧
    (empty (⟨4, 5, 1, 0, [], [(11, 10)]⟩ : spsc_latency_fifo Nat) = false ∧
      valid (⟨4, 5, 1, 0, [], [(11, 10)]⟩ : spsc_latency_fifo Nat) = false) :=
  ⟨by decide,
    pending_only_not_empty_not_valid 4 5 (by decide)
      [Op.write 0 10, Op.update 5, Op.read, Op.write 5 11, Op.update 9]
      { fifo := (⟨4, 5, 1, 0, [], [(11, 10)]⟩ : spsc_latency_fifo Nat)
        accepted := [(10, 0), (11, 5)]
        removed := [10] }
      (by decide) (by decide) (by decide)⟩

/-! ## The clock of the header -/

theorem update_loop_head_not_due (now : Nat) (l : List (T × Nat)) (out : List T) (n : Nat)
    (h : ∀ e, l.head? = some e → due now e = false) :
    update_loop now l out n = (l, out, n) := by
  cases l with
  | nil => rfl
  | cons e rest =>
    have := h e rfl
    simp [update_loop, this]

/-- With every clock value `0` and `1 <= latency < 2^32`, a run of `write` and `update`
calls completes and keeps `output_queue_` empty: every entry is stamped `latency`. -/
theorem run_own_clock {latency : Nat} (hl1 : 1 ≤ latency) (hl2 : latency < UINT32_SIZE) :
    ∀ (tr : List (Op T)) (s : Sim T),
      (∀ op ∈ tr, (op.is_write || op.is_update) = true) →
      (∀ c ∈ clock_values tr, c = getCurrentTime) →
      s.fifo.latency_ = latency → s.fifo.output_queue_ = [] → s.fifo.output_size_ = 0 →
      (∀ e ∈ s.fifo.input_queue_, e.2 = latency) → s.removed = [] →
      ∃ s', run tr s = Outcome.done s' ∧ s'.fifo.output_queue_ = [] ∧
        s'.fifo.output_size_ = 0 ∧ s'.removed = []
  | [], s, _, _, _, hout, hos, _, hrem => ⟨s, rfl, hout, hos, hrem⟩
  | op :: rest, s, hops, hclock, hlat, hout, hos, hin, hrem => by
    have hops' : ∀ o ∈ rest, (o.is_write || o.is_update) = true :=
      fun o ho => hops o (List.mem_cons_of_mem _ ho)
    cases op with
    | write now x =>
      have hnow : now = 0 := hclock now (by simp [clock_values])
      have hclock' : ∀ c ∈ clock_values rest, c = getCurrentTime :=
        fun c hc => hclock c (by simp [clock_values, hc])
      subst hnow
      have hstep := step_write_eq 0 x s
      obtain ⟨s', hrun, h⟩ :=
        run_own_clock hl1 hl2 rest
          { s with
            fifo := (write 0 x s.fifo).2
            accepted :=
              if (write 0 x s.fifo).1 then s.accepted ++ [(x, 0)] else s.accepted }
          hops' hclock'
          (by
            show (write 0 x s.fifo).2.latency_ = latency
            by_cases hf : full s.fifo = true
            · rw [write_of_full 0 x s.fifo hf]; exact hlat
            · rw [write_of_not_full 0 x s.fifo (by simpa using hf)]; exact hlat)
          (by
            show (write 0 x s.fifo).2.output_queue_ = []
            rw [write_output_queue]; exact hout)
          (by
            show (write 0 x s.fifo).2.output_size_ = 0
            by_cases hf : full s.fifo = true
            · rw [write_of_full 0 x s.fifo hf]; exact hos
            · rw [write_of_not_full 0 x s.fifo (by simpa using hf)]; exact hos)
          (by
            show ∀ e ∈ (write 0 x s.fifo).2.input_queue_, e.2 = latency
            by_cases hf : full s.fifo = true
            · rw [write_of_full 0 x s.fifo hf]; exact hin
            · rw [write_of_not_full 0 x s.fifo (by simpa using hf)]
              intro e he
              rcases List.mem_append.mp he with h1 | h1
              · exact hin e h1
              · rw [List.mem_singleton] at h1
                rw [h1, hlat]
                show (0 + latency) % UINT32_SIZE = latency
                rw [Nat.zero_add, Nat.mod_eq_of_lt hl2])
          hrem
      refine ⟨s', ?_, h⟩
      show run (Op.write 0 x :: rest) s = _
      unfold run
      rw [hstep]
      exact hrun
    | update now =>
      have hnow : now = 0 := hclock now (by simp [clock_values])
      have hclock' : ∀ c ∈ clock_values rest, c = getCurrentTime :=
        fun c hc => hclock c (by simp [clock_values, hc])
      subst hnow
      have hsame : update 0 s.fifo = s.fifo := by
        have hloop :=
          update_loop_head_not_due 0 s.fifo.input_queue_ s.fifo.output_queue_
            s.fifo.output_size_
            (by
              intro e he
              have hmem : e ∈ s.fifo.input_queue_ := List.mem_of_mem_head? he
              have := hin e hmem
              simp only [due, decide_eq_false_iff_not]
              omega)
        simp only [update, hloop]
      obtain ⟨s', hrun, h⟩ :=
        run_own_clock hl1 hl2 rest { s with fifo := update 0 s.fifo } hops' hclock'
          (by show (update 0 s.fifo).latency_ = latency; rw [hsame]; exact hlat)
          (by show (update 0 s.fifo).output_queue_ = []; rw [hsame]; exact hout)
          (by show (update 0 s.fifo).output_size_ = 0; rw [hsame]; exact hos)
          (by show ∀ e ∈ (update 0 s.fifo).input_queue_, e.2 = latency; rw [hsame]; exact hin)
          hrem
      refine ⟨s', ?_, h⟩
      show run (Op.update 0 :: rest) s = _
      unfold run
      rw [step_update_eq]
      exact hrun
    | read =>
      have := hops Op.read (List.mem_cons_self _ _)
      simp [Op.is_write, Op.is_update] at this
    | peek_front =>
      have := hops Op.peek_front (List.mem_cons_self _ _)
      simp [Op.is_write, Op.is_update] at this

/-- C19: on a freshly constructed queue with `1 <= latency` (both arguments `uint32_t`s),
every run of `write` and `update` calls made with the clock of the header
(`getCurrentTime()` is `0` in each call) completes in a state where `output_queue_` is
empty and `valid()` is false, so that `read()` and `peek_front()` fail their assertion;
nothing has left the queue: the items in `input_queue_` are all the accepted ones and
`size_` is their number. -/
theorem own_clock_never_visible (depth latency : Nat) (hd : depth < UINT32_SIZE)
    (hl1 : 1 ≤ latency) (hl2 : latency < UINT32_SIZE) (tr : List (Op T))
    (hops : ∀ op ∈ tr, (op.is_write || op.is_update) = true)
    (hclock : ∀ c ∈ clock_values tr, c = getCurrentTime) :
    ∃ s, run tr (Sim.start depth latency) = Outcome.done s ∧
      s.fifo.output_queue_ = [] ∧ valid s.fifo = false ∧
      read s.fifo = Outcome.assert_failed ∧ peek_front s.fifo = Outcome.assert_failed ∧
      s.fifo.input_queue_.map Prod.fst = s.accepted.map Prod.fst ∧
      s.fifo.size_ = s.accepted.length := by
  obtain ⟨s, hrun, hout, hos, hrem⟩ :=
    run_own_clock hl1 hl2 tr (Sim.start depth latency : Sim T) hops hclock rfl rfl rfl
      (by intro e he; cases he) rfl
  have hinv := run_inv (inv_start depth latency hd) hrun
  have hcons := inv_conservation hinv
  have hsz := hinv.counted.size_eq
  have hv : valid s.fifo = false := by simp [valid, hos]
  rw [hrem, hout] at hcons
  simp only [List.nil_append] at hcons
  refine ⟨s, hrun, hout, hv, ?_, ?_, hcons.symm, ?_⟩
  · simp [read, hv]
  · simp [peek_front, hv]
  · have := congrArg List.length hcons
    simp only [List.length_map] at this
    rw [hsz, hout, this]
    rfl

theorem own_clock_never_visible_witness :
    ∃ s, run [Op.write getCurrentTime 10, Op.update getCurrentTime,
          Op.write getCurrentTime 11, Op.write getCurrentTime 12,
          Op.update getCurrentTime] (Sim.start 2 DEFAULT_LATENCY : Sim Nat) =
        Outcome.done s ∧
      s.fifo.output_queue_ = [] ∧ valid s.fifo = false ∧
      read s.fifo = Outcome.assert_failed ∧ peek_front s.fifo = Outcome.assert_failed ∧
      s.fifo.input_queue_.map Prod.fst = s.accepted.map Prod.fst ∧
      s.fifo.size_ = s.accepted.length :=
  own_clock_never_visible 2 DEFAULT_LATENCY (by decide) (by decide) (by decide)
    [Op.write getCurrentTime 10, Op.update getCurrentTime, Op.write getCurrentTime 11,
      Op.write getCurrentTime 12, Op.update getCurrentTime]
    (by decide) (by decide)

/-! ## Filling the queue -/

theorem write_results_write (now : Nat) (x : T) (rest : List (Op T)) (s : Sim T) :
    write_results (Op.write now x :: rest) s =
      (write now x s.fifo).1 ::
        write_results rest
          { s with
            fifo := (write now x s.fifo).2
            accepted :=
              if (write now x s.fifo).1 then s.accepted ++ [(x, now)] else s.accepted } :=
  rfl

theorem write_results_update (now : Nat) (rest : List (Op T)) (s : Sim T) :
    write_results (Op.update now :: rest) s =
      write_results rest { s with fifo := update now s.fifo } :=
  rfl

theorem run_write (now : Nat) (x : T) (rest : List (Op T)) (s : Sim T) :
    run (Op.write now x :: rest) s =
      run rest
        { s with
          fifo := (write now x s.fifo).2
          accepted :=
            if (write now x s.fifo).1 then s.accepted ++ [(x, now)] else s.accepted } :=
  rfl

theorem run_update (now : Nat) (rest : List (Op T)) (s : Sim T) :
    run (Op.update now :: rest) s = run rest { s with fifo := update now s.fifo } :=
  rfl

/-- A run of `write` and `update` calls on a queue of capacity `C` (a `uint32_t`) holding
`size_ <= C` items completes; the writes return `true` until the queue holds `C` items
and `false` from then on. -/
theorem run_writes_updates (C : Nat) (hC : C < UINT32_SIZE) :
    ∀ (tr : List (Op T)) (s : Sim T),
      (∀ op ∈ tr, (op.is_write || op.is_update) = true) →
      s.fifo.depth_ = C → s.fifo.size_ ≤ C →
      ∃ s', run tr s = Outcome.done s' ∧ s'.fifo.depth_ = C ∧
        s'.fifo.size_ = min (s.fifo.size_ + (tr.filter Op.is_write).length) C ∧
        write_results tr s =
          List.replicate (min (tr.filter Op.is_write).length (C - s.fifo.size_)) true ++
            List.replicate ((tr.filter Op.is_write).length - (C - s.fifo.size_)) false
  | [], s, _, hdep, hsz => by
    refine ⟨s, rfl, hdep, ?_, ?_⟩
    · simp only [List.filter_nil, List.length_nil, Nat.add_zero]
      omega
    · simp [write_results]
  | op :: rest, s, hops, hdep, hsz => by
    have hops' : ∀ o ∈ rest, (o.is_write || o.is_update) = true :=
      fun o ho => hops o (List.mem_cons_of_mem _ ho)
    cases op with
    | write now x =>
      have hfilter : ((Op.write now x :: rest).filter Op.is_write).length =
          (rest.filter Op.is_write).length + 1 := by
        simp [List.filter_cons, Op.is_write]
      rw [run_write, write_results_write, hfilter]
      by_cases hf : full s.fifo = true
      · have hge : s.fifo.depth_ ≤ s.fifo.size_ := by simpa [full] using hf
        rw [write_of_full now x s.fifo hf]
        obtain ⟨s', hrun, hd', hs', hres⟩ :=
          run_writes_updates C hC rest
            { s with fifo := s.fifo, accepted := if false = true then _ else s.accepted }
            hops' hdep hsz
        refine ⟨s', hrun, hd', ?_, ?_⟩
        · rw [hs']
          show min (s.fifo.size_ + _) C = min (s.fifo.size_ + _) C
          omega
        · rw [hres]
          show false :: (List.replicate (min _ (C - s.fifo.size_)) true ++
              List.replicate (_ - (C - s.fifo.size_)) false) = _
          have h0 : C - s.fifo.size_ = 0 := by omega
          rw [h0]
          simp [List.replicate_succ]
      · have hf' : full s.fifo = false := by simpa using hf
        have hlt : s.fifo.size_ < s.fifo.depth_ := by simpa [full] using hf'
        have hmod : (s.fifo.size_ + 1) % UINT32_SIZE = s.fifo.size_ + 1 :=
          Nat.mod_eq_of_lt (by omega)
        rw [write_of_not_full now x s.fifo hf']
        obtain ⟨s', hrun, hd', hs', hres⟩ :=
          run_writes_updates C hC rest
            { s with
              fifo :=
                { s.fifo with
                  size_ := (s.fifo.size_ + 1) % UINT32_SIZE
                  input_queue_ :=
                    s.fifo.input_queue_ ++ [(x, (now + s.fifo.latency_) % UINT32_SIZE)] }
              accepted := if true = true then s.accepted ++ [(x, now)] else s.accepted }
            hops' hdep (by show (s.fifo.size_ + 1) % UINT32_SIZE ≤ C; rw [hmod]; omega)
        refine ⟨s', hrun, hd', ?_, ?_⟩
        · rw [hs']
          show min ((s.fifo.size_ + 1) % UINT32_SIZE + _) C = _
          rw [hmod]
          omega
        · rw [hres]
          show true :: (List.replicate (min _ (C - (s.fifo.size_ + 1) % UINT32_SIZE)) true ++
              List.replicate (_ - (C - (s.fifo.size_ + 1) % UINT32_SIZE)) false) = _
          rw [hmod]
          have h1 : min ((rest.filter Op.is_write).length + 1) (C - s.fifo.size_) =
              min (rest.filter Op.is_write).length (C - (s.fifo.size_ + 1)) + 1 := by omega
          have h2 : (rest.filter Op.is_write).length + 1 - (C - s.fifo.size_) =
              (rest.filter Op.is_write).length - (C - (s.fifo.size_ + 1)) := by omega
          rw [h1, h2, List.replicate_succ, List.cons_append]
    | update now =>
      have hfilter : ((Op.update now :: rest).filter Op.is_write) =
          rest.filter Op.is_write := by
        simp [List.filter_cons, Op.is_write]
      rw [run_update, write_results_update, hfilter]
      exact run_writes_updates C hC rest { s with fifo := update now s.fifo } hops' hdep hsz
    | read =>
      have := hops Op.read (List.mem_cons_self _ _)
      simp [Op.is_write, Op.is_update] at this
    | peek_front =>
      have := hops Op.peek_front (List.mem_cons_self _ _)
      simp [Op.is_write, Op.is_update] at this

/-- C11 (capacity enforcement): on a freshly constructed queue of capacity `C` (a
`uint32_t`), take any run of `write` and `update` calls, at any clock values, that holds
`C + 1` writes.  The run completes, the first `C` writes return `true`, the last one
returns `false`, and `size_` is `C` afterwards. -/
theorem capacity_enforcement (C latency : Nat) (hC : C < UINT32_SIZE) (tr : List (Op T))
    (hops : ∀ op ∈ tr, (op.is_write || op.is_update) = true)
    (hcount : (tr.filter Op.is_write).length = C + 1) :
    write_results tr (Sim.start C latency) = List.replicate C true ++ [false] ∧
      ∃ s, run tr (Sim.start C latency) = Outcome.done s ∧ s.fifo.size_ = C := by
  obtain ⟨s, hrun, -, hs, hres⟩ :=
    run_writes_updates C hC tr (Sim.start C latency : Sim T) hops rfl (Nat.zero_le _)
  rw [hcount] at hs hres
  have hz : (Sim.start C latency : Sim T).fifo.size_ = 0 := rfl
  rw [hz] at hs hres
  have h1 : min (C + 1) (C - 0) = C := by omega
  have h2 : C + 1 - (C - 0) = 1 := by omega
  rw [h1, h2] at hres
  refine ⟨hres, s, hrun, ?_⟩
  rw [hs]
  omega

theorem capacity_enforcement_witness :
    write_results [Op.write 0 10, Op.update 3, Op.write 4 11, Op.update 5, Op.write 5 12,
        Op.update 9] (Sim.start 2 5) =
      List.replicate 2 true ++ [false] ∧
    run [Op.write 0 10, Op.update 3, Op.write 4 11, Op.update 5, Op.write 5 12,
        Op.update 9] (Sim.start 2 5) =
      Outcome.done
        { fifo := (⟨2, 5, 2, 2, [10, 11], []⟩ : spsc_latency_fifo Nat)
          accepted := [(10, 0), (11, 4)]
          removed := [] } :=
  ⟨(capacity_enforcement 2 5 (by decide)
      [Op.write 0 10, Op.update 3, Op.write 4 11, Op.update 5, Op.write 5 12, Op.update 9]
      (by decide) (by decide)).1, by decide⟩

theorem filter_is_write_replicate (n now : Nat) (x : T) :
    ((List.replicate n (Op.write now x)).filter Op.is_write).length = n := by
  induction n with
  | zero => rfl
  | succ k ih =>
    rw [List.replicate_succ, List.filter_cons]
    simp only [Op.is_write, if_true, List.length_cons, ih]

theorem replicate_write_ops (n now : Nat) (x : T) :
    ∀ op ∈ List.replicate n (Op.write now x), (op.is_write || op.is_update) = true := by
  intro op hop
  rw [List.eq_of_mem_replicate hop]
  rfl

/-- After `n <= C` writes a fresh queue of capacity `C` (a `uint32_t`) holds `n` items. -/
theorem run_replicate_write (C latency n now : Nat) (x : T) (hC : C < UINT32_SIZE)
    (hn : n ≤ C) :
    ∃ s, run (List.replicate n (Op.write now x)) (Sim.start C latency) = Outcome.done s ∧
      s.fifo.depth_ = C ∧ s.fifo.size_ = n := by
  obtain ⟨s, hrun, hdep, hs, -⟩ :=
    run_writes_updates C hC (List.replicate n (Op.write now x))
      (Sim.start C latency : Sim T) (replicate_write_ops n now x) rfl (Nat.zero_le _)
  refine ⟨s, hrun, hdep, ?_⟩
  rw [hs, filter_is_write_replicate]
  have hz : (Sim.start C latency : Sim T).fifo.size_ = 0 := rfl
  rw [hz]
  omega

/-- C12, as stated, fails in the state a default-constructed queue (`DEPTH_INFINITE`,
`DEFAULT_LATENCY`) reaches after `0xffffffff` writes: `full()` returns true there and the
next `write` is rejected. -/
theorem infinite_depth_fills :
    ∃ s, run (List.replicate 4294967295 (Op.write getCurrentTime ()))
          (Sim.start DEPTH_INFINITE DEFAULT_LATENCY : Sim Unit) = Outcome.done s ∧
      full s.fifo = true ∧ (write getCurrentTime () s.fifo).1 = false := by
  obtain ⟨s, hrun, hdep, hs⟩ :=
    run_replicate_write DEPTH_INFINITE DEFAULT_LATENCY 4294967295 getCurrentTime ()
      (by decide) (Nat.le_refl _)
  have hf : full s.fifo = true := by
    simp only [full, decide_eq_true_eq, hdep, hs]
    exact Nat.le_refl _
  exact ⟨s, hrun, hf, by rw [write_of_full _ _ _ hf]⟩

/-- C12, amended: a queue constructed with `DEPTH_INFINITE` is full exactly when it holds
`0xffffffff` items; in every reachable state that holds fewer, `full()` returns false and
no `write` is rejected, whatever the item and the clock value. -/
theorem infinite_depth_full_iff (latency : Nat) (tr : List (Op T)) (s : Sim T)
    (hrun : run tr (Sim.start DEPTH_INFINITE latency) = Outcome.done s) :
    (full s.fifo = true ↔
        s.fifo.input_queue_.length + s.fifo.output_queue_.length = 4294967295) ∧
      (s.fifo.input_queue_.length + s.fifo.output_queue_.length < 4294967295 →
        full s.fifo = false ∧ ∀ (now : Nat) (x : T), (write now x s.fifo).1 = true) := by
  have hinv := run_inv (inv_start DEPTH_INFINITE latency (by decide)) hrun
  have h1 := hinv.counted.size_eq
  have h2 := hinv.counted.size_le
  have h3 : s.fifo.depth_ = 4294967295 := hinv.depth_eq
  constructor
  · simp only [full, decide_eq_true_eq]
    omega
  · intro hlt
    have hf : full s.fifo = false := by
      simp only [full, decide_eq_false_iff_not]
      omega
    exact ⟨hf, fun now x => by rw [write_of_not_full now x s.fifo hf]⟩

theorem infinite_depth_full_iff_witness :
    run [Op.write 0 10, Op.write 1 11, Op.update 1, Op.read, Op.write 2 12]
        (Sim.start DEPTH_INFINITE DEFAULT_LATENCY) =
      Outcome.done
        { fifo := (⟨4294967295, 1, 2, 0, [], [(11, 2), (12, 3)]⟩ : spsc_latency_fifo Nat)
          accepted := [(10, 0), (11, 1), (12, 2)]
          removed := [10] } ∧
    full (⟨4294967295, 1, 2, 0, [], [(11, 2), (12, 3)]⟩ : spsc_latency_fifo Nat) = false :=
  ⟨by decide,
    ((infinite_depth_full_iff DEFAULT_LATENCY
      [Op.write 0 10, Op.write 1 11, Op.update 1, Op.read, Op.write 2 12]
      { fifo := (⟨4294967295, 1, 2, 0, [], [(11, 2), (12, 3)]⟩ : spsc_latency_fifo Nat)
        accepted := [(10, 0), (11, 1), (12, 2)]
        removed := [10] }
      (by decide)).2 (by decide)).1⟩

/-! ## The order of `input_queue_` -/

/-- Every accepted item was accepted before the run or comes from a `write` of the run. -/
theorem accepted_from_writes :
    ∀ (tr : List (Op T)) (s s' : Sim T), run tr s = Outcome.done s' →
      ∀ p ∈ s'.accepted, p ∈ s.accepted ∨ Op.write p.2 p.1 ∈ tr
  | [], s, s', h, p, hp => by
    injection h with h
    subst h
    exact Or.inl hp
  | op :: rest, s, s', h, p, hp => by
    obtain ⟨s1, h1, h2⟩ := run_cons_done h
    rcases accepted_from_writes rest s1 s' h2 p hp with hin | hin
    · cases op with
      | write now y =>
        rw [step_write_eq] at h1
        injection h1 with h1
        subst h1
        by_cases hw : (write now y s.fifo).1 = true
        · simp only [hw, if_true] at hin
          rcases List.mem_append.mp hin with h3 | h3
          · exact Or.inl h3
          · rw [List.mem_singleton] at h3
            subst h3
            exact Or.inr (List.mem_cons_self _ _)
        · simp only [hw] at hin
          exact Or.inl hin
      | read =>
        obtain ⟨e, -, rfl⟩ := step_read_done h1
        exact Or.inl hin
      | peek_front =>
        obtain ⟨-, rfl⟩ := step_peek_front_done h1
        exact Or.inl hin
      | update now =>
        rw [step_update_eq] at h1
        injection h1 with h1
        subst h1
        exact Or.inl hin
    · exact Or.inr (List.mem_cons_of_mem _ hin)

/-- Under a non-decreasing clock, and as long as every `write` runs at a clock value `t`
with `t + latency <= 0xffffffff`, the eligible times stored in `input_queue_` are
non-decreasing from head to tail in every reachable state, and after a run that ends with
an `update` at clock value `now` every entry left in `input_queue_` has eligible time
`> now`. -/
theorem pending_sorted_in_range (depth latency : Nat) (hd : depth < UINT32_SIZE)
    (tr : List (Op T))
    (s : Sim T) (hclock : (clock_values tr).Pairwise (· ≤ ·))
    (hfit : ∀ now x, Op.write now x ∈ tr → now + latency < UINT32_SIZE)
    (hrun : run tr (Sim.start depth latency) = Outcome.done s) :
    (s.fifo.input_queue_.map Prod.snd).Pairwise (· ≤ ·) ∧
      ∀ tr0 now, tr = tr0 ++ [Op.update now] → ∀ e ∈ s.fifo.input_queue_, now < e.2 := by
  have hinv := run_inv (inv_start depth latency hd) hrun
  have hsub := accepted_times_sublist _ _ _ hrun
  have hsorted : (s.accepted.map Prod.snd).Pairwise (· ≤ ·) := by
    refine List.Pairwise.sublist ?_ hclock
    simpa [Sim.start] using hsub
  have hwrites := accepted_from_writes _ _ _ hrun
  obtain ⟨-, -, -, gone, pend, hacc, -, hpend⟩ := hinv
  have hpsorted : (pend.map Prod.snd).Pairwise (· ≤ ·) := by
    rw [hacc, List.map_append, List.pairwise_append] at hsorted
    exact hsorted.2.1
  have hstamp : ∀ p ∈ pend, (stamp latency p).2 = p.2 + latency := by
    intro p hp
    have hmem : p ∈ s.accepted := by rw [hacc]; exact List.mem_append_right _ hp
    rcases hwrites p hmem with h | h
    · cases h
    · exact Nat.mod_eq_of_lt (hfit p.2 p.1 h)
  have hfirst : (s.fifo.input_queue_.map Prod.snd).Pairwise (· ≤ ·) := by
    rw [hpend, List.map_map, List.pairwise_map]
    rw [List.pairwise_map] at hpsorted
    refine List.Pairwise.imp_of_mem ?_ hpsorted
    intro a b ha hb hab
    show (stamp latency a).2 ≤ (stamp latency b).2
    rw [hstamp a ha, hstamp b hb]
    omega
  refine ⟨hfirst, ?_⟩
  intro tr0 now htr e he
  subst htr
  obtain ⟨s1, -, hlast⟩ := run_append_done hrun
  obtain ⟨s2, hstep, hnil⟩ := run_cons_done hlast
  injection hnil with hnil
  subst hnil
  rw [step_update_eq] at hstep
  injection hstep with hstep
  have hinput : s2.fifo.input_queue_ = s1.fifo.input_queue_.dropWhile (due now) := by
    rw [← hstep]
    exact update_input now s1.fifo
  have hhead := List.head?_dropWhile_not (due now) s1.fifo.input_queue_
  rw [← hinput] at hhead
  cases hq : s2.fifo.input_queue_ with
  | nil => rw [hq] at he; cases he
  | cons e0 rest =>
    rw [hq] at hhead hfirst he
    have h0 : now < e0.2 := by
      simp only [List.head?_cons, due] at hhead
      simpa using hhead
    rcases List.mem_cons.mp he with heq | hin
    · rw [heq]; exact h0
    · rw [List.map_cons, List.pairwise_cons] at hfirst
      have := hfirst.1 e.2 (List.mem_map.mpr ⟨e, hin, rfl⟩)
      omega

/-! ## Latency at the clock of the header

`getCurrentTime()` is the only source of time of `write` and `update`.  At the value it
returns a stamp is `getCurrentTime + latency_`, below `2 ^ 32` for every `uint32_t`
latency, so the statements of the previous sections hold there without a condition on the
sum. -/

theorem own_clock_in_range {t latency : Nat} (ht : t = getCurrentTime)
    (hl : latency < UINT32_SIZE) : t + latency < UINT32_SIZE := by
  rw [ht]
  show 0 + latency < UINT32_SIZE
  omega

theorem write_clock_mem {now : Nat} {x : T} :
    ∀ {tr : List (Op T)}, Op.write now x ∈ tr → now ∈ clock_values tr
  | [], h => by cases h
  | op :: rest, h => by
    rcases List.mem_cons.mp h with heq | hin
    · subst heq
      simp [clock_values]
    · have ih := write_clock_mem hin
      cases op <;> simp [clock_values, ih]

theorem pairwise_le_of_all_eq {k : Nat} {l : List Nat} (h : ∀ c ∈ l, c = k) :
    l.Pairwise (· ≤ ·) := by
  have htriv : l.Pairwise (fun _ _ => True) := List.pairwise_of_forall (fun _ _ => trivial)
  refine List.Pairwise.imp_of_mem ?_ htriv
  intro a b ha hb _
  rw [h a ha, h b hb]

/-- C3: on every queue with `size_ < depth_` (`depth_` and `latency_` `uint32_t`s) and for
every item `x`, `write(x)` at the current time `t`, the value `getCurrentTime()` returns,
returns `true`; the new `input_queue_` is the old one with the single entry
`(x, t + latency_)` appended at its tail, `size_` increases by exactly 1, and
`output_queue_`, `output_size_`, `depth_` and `latency_` are unchanged. -/
theorem write_accepted_effect (t : Nat) (x : T) (q : spsc_latency_fifo T)
    (ht : t = getCurrentTime) (h : q.size_ < q.depth_) (hd : q.depth_ < UINT32_SIZE)
    (hl : q.latency_ < UINT32_SIZE) :
    (write t x q).1 = true ∧
      (write t x q).2.input_queue_ = q.input_queue_ ++ [(x, t + q.latency_)] ∧
      (write t x q).2.size_ = q.size_ + 1 ∧
      (write t x q).2.output_queue_ = q.output_queue_ ∧
      (write t x q).2.output_size_ = q.output_size_ ∧
      (write t x q).2.depth_ = q.depth_ ∧
      (write t x q).2.latency_ = q.latency_ := by
  obtain ⟨h1, -, h3, h4, h5, h6, h7, h8⟩ := write_accepted_in_range t x q h hd
  exact ⟨h1, h3 (own_clock_in_range ht hl), h4, h5, h6, h7, h8⟩

theorem write_accepted_effect_witness :
    write getCurrentTime 12 (⟨2, 5, 1, 0, [], [(10, 5)]⟩ : spsc_latency_fifo Nat) =
        (true, ⟨2, 5, 2, 0, [], [(10, 5), (12, 5)]⟩) ∧
      (write getCurrentTime 12 (⟨2, 5, 1, 0, [], [(10, 5)]⟩ :
          spsc_latency_fifo Nat)).2.input_queue_ =
        [(10, 5)] ++ [(12, getCurrentTime + 5)] :=
  ⟨by decide,
    (write_accepted_effect getCurrentTime 12
      (⟨2, 5, 1, 0, [], [(10, 5)]⟩ : spsc_latency_fifo Nat) rfl (by decide) (by decide)
      (by decide)).2.1⟩

/-- C7 (never promoted early): let an item `x` be accepted by `write` at the time `t`
that `getCurrentTime()` returns, on a queue of latency `latency` (a `uint32_t`) in a state
reached from a fresh queue, and let any calls follow in which every `update` runs at a
clock value `now < t + latency`.  Then the accepted items are, in order, the removed
ones, the ones in `output_queue_`, the ones in `input_queue_`; `x` is still an entry of
`input_queue_`, stamped `t + latency`, behind everything that has left `input_queue_` (so
it is not in `output_queue_`, and `read`/`peek_front` cannot reach it); and `valid()` is
false if it is the only item of the queue, or if all items accepted before it have been
read. -/
theorem not_promoted_early (depth latency : Nat) (hd : depth < UINT32_SIZE)
    (hl : latency < UINT32_SIZE)
    (tr1 : List (Op T)) (s1 : Sim T) (t : Nat) (x : T) (tr2 : List (Op T)) (s : Sim T)
    (ht : t = getCurrentTime)
    (h1 : run tr1 (Sim.start depth latency) = Outcome.done s1)
    (hroom : full s1.fifo = false)
    (hearly : ∀ now, Op.update now ∈ tr2 → now < t + latency)
    (h2 : run (Op.write t x :: tr2) s1 = Outcome.done s) :
    s.accepted.map Prod.fst =
        s.removed ++ s.fifo.output_queue_ ++ s.fifo.input_queue_.map Prod.fst ∧
      s.accepted[s1.accepted.length]? = some (x, t) ∧
      s.removed.length + s.fifo.output_queue_.length ≤ s1.accepted.length ∧
      s.fifo.input_queue_[s1.accepted.length -
          (s.removed.length + s.fifo.output_queue_.length)]? = some (x, t + latency) ∧
      (s.fifo.size_ = 1 → valid s.fifo = false) ∧
      (s.removed.length = s1.accepted.length → valid s.fifo = false) :=
  stays_pending_in_range depth latency hd tr1 s1 t x tr2 s h1 hroom
    (own_clock_in_range ht hl) hearly h2

theorem not_promoted_early_witness :
    run [Op.write getCurrentTime 12, Op.update getCurrentTime, Op.write getCurrentTime 13,
        Op.update getCurrentTime] (Sim.start 3 5) =
      Outcome.done
        { fifo := (⟨3, 5, 2, 0, [], [(12, 5), (13, 5)]⟩ : spsc_latency_fifo Nat)
          accepted := [(12, 0), (13, 0)]
          removed := [] } ∧
    [((12 : Nat), 5), (13, 5)][0 - (0 + 0)]? = some (12, getCurrentTime + 5) ∧
    valid (⟨3, 5, 2, 0, [], [(12, 5), (13, 5)]⟩ : spsc_latency_fifo Nat) = false :=
  have h :=
    not_promoted_early 3 5 (by decide) (by decide) [] (Sim.start 3 5) getCurrentTime 12
      [Op.update getCurrentTime, Op.write getCurrentTime 13, Op.update getCurrentTime]
      { fifo := (⟨3, 5, 2, 0, [], [(12, 5), (13, 5)]⟩ : spsc_latency_fifo Nat)
        accepted := [(12, 0), (13, 0)]
        removed := [] }
      rfl (by decide) (by decide)
      (by
        intro now hmem
        simp only [List.mem_cons, Op.update.injEq, reduceCtorEq, false_or, or_false,
          List.mem_nil_iff] at hmem
        rcases hmem with h | h <;> subst h <;> decide)
      (by decide)
  ⟨by decide, h.2.2.2.1, h.2.2.2.2.2 rfl⟩

/-- C18 (pending is sorted by eligibility): on a fresh queue (`depth` and `latency`
`uint32_t`s) run with the clock of the header, where every call reads the value
`getCurrentTime()` returns (a non-decreasing clock), the eligible times stored in
`input_queue_` are non-decreasing from head to tail in every reachable state, and after a
run that ends with an `update` at clock value `now` no entry left in `input_queue_` has
eligible time `<= now`. -/
theorem pending_sorted (depth latency : Nat) (hd : depth < UINT32_SIZE)
    (hl : latency < UINT32_SIZE) (tr : List (Op T)) (s : Sim T)
    (hclock : ∀ c ∈ clock_values tr, c = getCurrentTime)
    (hrun : run tr (Sim.start depth latency) = Outcome.done s) :
    (clock_values tr).Pairwise (· ≤ ·) ∧
      (s.fifo.input_queue_.map Prod.snd).Pairwise (· ≤ ·) ∧
      ∀ tr0 now, tr = tr0 ++ [Op.update now] → ∀ e ∈ s.fifo.input_queue_, now < e.2 := by
  have hmono := pairwise_le_of_all_eq hclock
  exact ⟨hmono,
    pending_sorted_in_range depth latency hd tr s hmono
      (fun now _ hmem => own_clock_in_range (hclock now (write_clock_mem hmem)) hl) hrun⟩

theorem pending_sorted_witness :
    run [Op.write getCurrentTime 10, Op.update getCurrentTime, Op.write getCurrentTime 11,
        Op.update getCurrentTime] (Sim.start 4 5) =
      Outcome.done
        { fifo := (⟨4, 5, 2, 0, [], [(10, 5), (11, 5)]⟩ : spsc_latency_fifo Nat)
          accepted := [(10, 0), (11, 0)]
          removed := [] } ∧
    ([((10 : Nat), 5), (11, 5)].map Prod.snd).Pairwise (· ≤ ·) ∧
    (∀ e ∈ [((10 : Nat), 5), (11, 5)], getCurrentTime < e.2) :=
  have h :=
    pending_sorted 4 5 (by decide) (by decide)
      [Op.write getCurrentTime 10, Op.update getCurrentTime, Op.write getCurrentTime 11,
        Op.update getCurrentTime]
      { fifo := (⟨4, 5, 2, 0, [], [(10, 5), (11, 5)]⟩ : spsc_latency_fifo Nat)
        accepted := [(10, 0), (11, 0)]
        removed := [] }
      (by decide) (by decide)
  ⟨by decide, h.2.1,
    h.2.2 [Op.write getCurrentTime 10, Op.update getCurrentTime,
      Op.write getCurrentTime 11] getCurrentTime rfl⟩

/-! ## The worked scenario

`update()` takes no argument: the time of a promote step is what `getCurrentTime()`
returns, `0` in every call, so the scenario (capacity 2, latency 5) is the sequence of calls
`write(A)`, `write(B)`, `write(C)`, `update()`, `update()`, `read()`, `write(C)`. -/

end SpscFifo
